import Mathlib

/-!
Verification of the Raptor++ core against its specification.

The development shallowly embeds the three source files:

* `rdf_parser.hpp` — the term model (`rdf_uri`, `rdf_literal`, `rdf_blank`,
  the `rdf_term` variant, `term_cast`, `make_rdf_term`, `rdf_triple`) and the
  `rdf_web_parser` function object, modelled over an explicit trace of the
  callback events (statements and log messages) the underlying raptor parse
  fires;
* the visitors header — the `aggregate` observer composite, modelled as a
  run function that records the argument of every component invocation and
  stops at the first failure (C++ exception propagation);
* `ontology_walker.hpp` — the breadth-first walk, modelled as a fuel-indexed
  loop over an explicit fringe queue and closed list, instrumented with the
  traces (observer invocations, fetch attempts, dequeues, enqueues) that the
  specified properties speak about.

Machine strings: `std::basic_string<unsigned char>` and `std::string` are both
modelled as Lean `String`; `to_std_string` converts character by character and
is the identity under this model. C++ exceptions (`std::domain_error`) become
`Except String`.
-/

/-- Unsigned strings (std::basic_string of unsigned char); modelled as Lean
strings, like std::string. -/
abbrev unsigned_string := String

/-- Conversion of an unsigned string to a std::string: a character-by-character
cast, the identity under this model. -/
def to_std_string (str : unsigned_string) : String := str

/-- A raptor_uri pointer: NULL or the string the uri prints as
(raptor_uri_as_string). -/
abbrev raptor_uri_ptr := Option unsigned_string

/-- A type representing a URI (struct rdf_uri). -/
structure rdf_uri where
  uri_ : unsigned_string
deriving DecidableEq, Repr

/-- The rdf_uri constructor taking a raptor_uri pointer: a NULL pointer yields
the empty unsigned string, otherwise raptor_uri_as_string. -/
def rdf_uri.of_raptor (uri : raptor_uri_ptr) : rdf_uri :=
  match uri with
  | none => ⟨""⟩
  | some s => ⟨s⟩

/-- Accessor rdf_uri::uri(). -/
def rdf_uri.uri (r : rdf_uri) : unsigned_string := r.uri_

/-- The value field of a raptor literal term (raptor_term_literal_value):
the literal text and the (possibly NULL) datatype uri. -/
structure raptor_term_literal_value where
  string : unsigned_string
  datatype : raptor_uri_ptr
deriving DecidableEq, Repr

/-- The value field of a raptor blank term (raptor_term_blank_value). -/
structure raptor_term_blank_value where
  string : unsigned_string
deriving DecidableEq, Repr

/-- A type representing a literal value (struct rdf_literal). -/
structure rdf_literal where
  literal_ : unsigned_string
  literal_uri_ : rdf_uri
deriving DecidableEq, Repr

/-- The rdf_literal constructor from a raptor_term_literal_value. -/
def rdf_literal.of_raptor (lit : raptor_term_literal_value) : rdf_literal :=
  ⟨lit.string, rdf_uri.of_raptor lit.datatype⟩

/-- Accessor rdf_literal::value(). -/
def rdf_literal.value (l : rdf_literal) : unsigned_string := l.literal_

/-- Accessor rdf_literal::uri(). -/
def rdf_literal.uri (l : rdf_literal) : rdf_uri := l.literal_uri_

/-- A blank type (struct rdf_blank). -/
structure rdf_blank where
  str_ : unsigned_string
deriving DecidableEq, Repr

/-- The rdf_blank constructor from a raptor_term_blank_value. -/
def rdf_blank.of_raptor (blnk : raptor_term_blank_value) : rdf_blank :=
  ⟨blnk.string⟩

/-- Accessor rdf_blank::value(). -/
def rdf_blank.value (b : rdf_blank) : unsigned_string := b.str_

/-- An rdf_term is boost::variant of rdf_uri, rdf_literal, rdf_blank: exactly
one variant is active. -/
inductive rdf_term where
  | uriTerm (u : rdf_uri)
  | literalTerm (l : rdf_literal)
  | blankTerm (b : rdf_blank)
deriving DecidableEq, Repr

/-- Predicate is_uri: the visitor returning true exactly on the rdf_uri
variant. -/
def is_uri : rdf_term → Bool
  | .uriTerm _ => true
  | _ => false

/-- Predicate is_literal. -/
def is_literal : rdf_term → Bool
  | .literalTerm _ => true
  | _ => false

/-- Predicate is_blank. -/
def is_blank : rdf_term → Bool
  | .blankTerm _ => true
  | _ => false

/-- term_cast specialised to rdf_uri: if is_uri, boost::get the payload,
otherwise throw std::domain_error with message "bad cast". -/
def term_cast_uri (t : rdf_term) : Except String rdf_uri :=
  if is_uri t then
    match t with
    | .uriTerm u => Except.ok u
    | _ => Except.error "bad get"
  else Except.error "bad cast"

/-- term_cast specialised to rdf_literal. -/
def term_cast_literal (t : rdf_term) : Except String rdf_literal :=
  if is_literal t then
    match t with
    | .literalTerm l => Except.ok l
    | _ => Except.error "bad get"
  else Except.error "bad cast"

/-- term_cast specialised to rdf_blank. -/
def term_cast_blank (t : rdf_term) : Except String rdf_blank :=
  if is_blank t then
    match t with
    | .blankTerm b => Except.ok b
    | _ => Except.error "bad get"
  else Except.error "bad cast"

/-- A raw raptor term (raptor_term): its type tag together with the union
payload the tag selects. RAPTOR_TERM_TYPE_UNKNOWN is the remaining tag
value, covered by the default case of make_rdf_term. -/
inductive raptor_term where
  | uriT (value : raptor_uri_ptr)
  | literalT (value : raptor_term_literal_value)
  | blankT (value : raptor_term_blank_value)
  | unknownT
deriving DecidableEq, Repr

/-- make_rdf_term: the switch over the raptor term type; the default case
throws std::domain_error with message "bad rdf data". -/
def make_rdf_term : raptor_term → Except String rdf_term
  | .uriT u => Except.ok (rdf_term.uriTerm (rdf_uri.of_raptor u))
  | .literalT l => Except.ok (rdf_term.literalTerm (rdf_literal.of_raptor l))
  | .blankT b => Except.ok (rdf_term.blankTerm (rdf_blank.of_raptor b))
  | .unknownT => Except.error "bad rdf data"

/-- An rdf triple: a (subject, predicate, object) triple of rdf_terms. -/
structure rdf_triple where
  subject_ : rdf_term
  predicate_ : rdf_term
  object_ : rdf_term
deriving DecidableEq, Repr

/-- Accessor rdf_triple::subject(). -/
def rdf_triple.subject (t : rdf_triple) : rdf_term := t.subject_

/-- Accessor rdf_triple::predicate(). -/
def rdf_triple.predicate (t : rdf_triple) : rdf_term := t.predicate_

/-- Accessor rdf_triple::object(). -/
def rdf_triple.object (t : rdf_triple) : rdf_term := t.object_

/-- C9. Term projection: casting a term to a requested variant returns the
payload exactly when that variant is active (so checking the variant first
always avoids the failure), and signals the recoverable "bad cast" error when
the active variant differs, for each of the three variants. -/
theorem term_cast_projection (t : rdf_term) :
    ((∀ u, t = rdf_term.uriTerm u → term_cast_uri t = Except.ok u)
      ∧ (is_uri t = false → term_cast_uri t = Except.error "bad cast")
      ∧ ((∃ u, term_cast_uri t = Except.ok u) ↔ is_uri t = true))
    ∧ ((∀ l, t = rdf_term.literalTerm l → term_cast_literal t = Except.ok l)
      ∧ (is_literal t = false → term_cast_literal t = Except.error "bad cast")
      ∧ ((∃ l, term_cast_literal t = Except.ok l) ↔ is_literal t = true))
    ∧ ((∀ b, t = rdf_term.blankTerm b → term_cast_blank t = Except.ok b)
      ∧ (is_blank t = false → term_cast_blank t = Except.error "bad cast")
      ∧ ((∃ b, term_cast_blank t = Except.ok b) ↔ is_blank t = true)) := by
  cases t <;>
    simp [term_cast_uri, term_cast_literal, term_cast_blank,
      is_uri, is_literal, is_blank]

/-- C10. Term construction totality: building an rdf_term from a raw raptor
term succeeds with the corresponding variant exactly when the raw type is
resource uri, literal or blank; any other raw type yields the "bad rdf data"
failure and no term, and every term produced has one of the three variants
active. -/
theorem make_rdf_term_totality (rt : raptor_term) :
    (∀ u, rt = raptor_term.uriT u →
        make_rdf_term rt = Except.ok (rdf_term.uriTerm (rdf_uri.of_raptor u)))
    ∧ (∀ l, rt = raptor_term.literalT l →
        make_rdf_term rt = Except.ok (rdf_term.literalTerm (rdf_literal.of_raptor l)))
    ∧ (∀ b, rt = raptor_term.blankT b →
        make_rdf_term rt = Except.ok (rdf_term.blankTerm (rdf_blank.of_raptor b)))
    ∧ (rt = raptor_term.unknownT → make_rdf_term rt = Except.error "bad rdf data")
    ∧ ((∃ t, make_rdf_term rt = Except.ok t) ↔ rt ≠ raptor_term.unknownT)
    ∧ (∀ t, make_rdf_term rt = Except.ok t →
        (is_uri t = true ∨ is_literal t = true ∨ is_blank t = true)) := by
  cases rt <;>
    simp [make_rdf_term, is_uri, is_literal, is_blank]

/-- Raptor log severity levels (raptor_log_level). -/
inductive raptor_log_level where
  | trace | debug | info | warn | error | fatal
deriving DecidableEq, Repr

/-- The log handler handle_log_messages: the value it stores into good_parse
when a message of the given level arrives, namely level != ERROR and
level != FATAL. The handler overwrites good_parse on every message. -/
def handle_log_messages : raptor_log_level → Bool
  | raptor_log_level.error => false
  | raptor_log_level.fatal => false
  | _ => true

/-- A raw raptor statement: the three raw terms of one parsed triple. -/
structure raptor_statement where
  subject : raptor_term
  predicate : raptor_term
  object : raptor_term
deriving DecidableEq, Repr

/-- The statement handler handle_statement: build an rdf_triple from the raw
statement with make_rdf_term on each position and push it onto the
accumulated triples; a make_rdf_term failure propagates (in the C++ the
thrown exception escapes the callback). -/
def handle_statement (triples : List rdf_triple) (statement : raptor_statement) :
    Except String (List rdf_triple) :=
  match make_rdf_term statement.subject with
  | Except.error e => Except.error e
  | Except.ok s =>
    match make_rdf_term statement.predicate with
    | Except.error e => Except.error e
    | Except.ok p =>
      match make_rdf_term statement.object with
      | Except.error e => Except.error e
      | Except.ok o => Except.ok (triples ++ [⟨s, p, o⟩])

/-- One callback event fired by the raptor parse: a statement handed to the
statement handler, or a log message handed to the log handler. -/
inductive raptor_event where
  | statement (s : raptor_statement)
  | log (level : raptor_log_level)
deriving DecidableEq, Repr

/-- The event loop of one parse run: triples accumulate through
handle_statement, good_parse is overwritten by handle_log_messages on every
log message, in event order. -/
def rdf_web_parser_events (events : List raptor_event) (triples : List rdf_triple)
    (good_parse : Bool) : Except String (List rdf_triple × Bool) :=
  match events with
  | [] => Except.ok (triples, good_parse)
  | raptor_event.statement s :: rest =>
      match handle_statement triples s with
      | Except.error e => Except.error e
      | Except.ok triples' => rdf_web_parser_events rest triples' good_parse
  | raptor_event.log level :: rest =>
      rdf_web_parser_events rest triples (handle_log_messages level)

/-- The observable outcome of the external machinery behind one
rdf_web_parser::operator() call: whether raptor_new_uri produced a non-NULL
uri object, and the sequence of callback events the parse fired. -/
structure web_fetch_outcome where
  uri_init_ok : Bool
  events : List raptor_event
deriving DecidableEq, Repr

/-- rdf_web_parser::operator(): if the uri object is NULL the call throws
std::domain_error; otherwise triples start empty and good_parse starts true,
the parse fires its events, every accumulated triple is copied to the
destination and good_parse is returned. The result pair is (returned flag,
triples written to the destination). -/
def rdf_web_parser_call (outcome : web_fetch_outcome) : Except String (Bool × List rdf_triple) :=
  if outcome.uri_init_ok then
    match rdf_web_parser_events outcome.events [] true with
    | Except.error e => Except.error e
    | Except.ok r => Except.ok (r.2, r.1)
  else Except.error "Failed to initialize raptor uri"

/-- The level of the last log message among the events, if any. -/
def last_log_level : List raptor_event → Option raptor_log_level
  | [] => none
  | raptor_event.statement _ :: rest => last_log_level rest
  | raptor_event.log l :: rest =>
      match last_log_level rest with
      | some l' => some l'
      | none => some l

/-- How many statement events a parse fired. -/
def statement_count : List raptor_event → Nat
  | [] => 0
  | raptor_event.statement _ :: rest => statement_count rest + 1
  | raptor_event.log _ :: rest => statement_count rest

/-- A raw term whose type tag is one of the three make_rdf_term accepts. -/
def well_formed_term : raptor_term → Bool
  | raptor_term.unknownT => false
  | _ => true

/-- An event the handlers process without throwing: any log message, or a
statement whose three raw terms are well formed. -/
def well_formed_event : raptor_event → Bool
  | raptor_event.statement s =>
      well_formed_term s.subject && well_formed_term s.predicate
        && well_formed_term s.object
  | raptor_event.log _ => true

/-- A well formed raw term always builds some rdf_term. -/
theorem make_rdf_term_of_well_formed (t : raptor_term) (h : well_formed_term t = true) :
    ∃ t', make_rdf_term t = Except.ok t' := by
  cases t with
  | uriT u => exact ⟨_, rfl⟩
  | literalT l => exact ⟨_, rfl⟩
  | blankT b => exact ⟨_, rfl⟩
  | unknownT => simp [well_formed_term] at h

/-- The statement handler appends exactly one triple when the statement is
well formed. -/
theorem handle_statement_of_well_formed (triples : List rdf_triple)
    (s : raptor_statement)
    (h : well_formed_event (raptor_event.statement s) = true) :
    ∃ tr, handle_statement triples s = Except.ok (triples ++ [tr]) := by
  simp only [well_formed_event, Bool.and_eq_true] at h
  obtain ⟨⟨h1, h2⟩, h3⟩ := h
  obtain ⟨t1, ht1⟩ := make_rdf_term_of_well_formed _ h1
  obtain ⟨t2, ht2⟩ := make_rdf_term_of_well_formed _ h2
  obtain ⟨t3, ht3⟩ := make_rdf_term_of_well_formed _ h3
  exact ⟨⟨t1, t2, t3⟩, by simp [handle_statement, ht1, ht2, ht3]⟩

/-- The event loop of a well formed parse never throws: it yields the
accumulated triples, one per statement event, and the good_parse value
dictated by the last log message. -/
theorem rdf_web_parser_events_spec (events : List raptor_event) :
    ∀ (triples : List rdf_triple) (g : Bool),
      (∀ e ∈ events, well_formed_event e = true) →
      ∃ ts, rdf_web_parser_events events triples g
          = Except.ok (ts,
              match last_log_level events with
              | some l => handle_log_messages l
              | none => g)
        ∧ ts.length = triples.length + statement_count events := by
  induction events with
  | nil =>
    intro triples g _
    exact ⟨triples, by simp [rdf_web_parser_events, last_log_level], by
      simp [statement_count]⟩
  | cons e rest ih =>
    intro triples g h
    cases e with
    | statement s =>
      obtain ⟨tr, htr⟩ :=
        handle_statement_of_well_formed triples s (h _ (List.mem_cons_self _ _))
      obtain ⟨ts, hts, hlen⟩ :=
        ih (triples ++ [tr]) g (fun e he => h e (List.mem_cons_of_mem _ he))
      refine ⟨ts, ?_, ?_⟩
      · simp [rdf_web_parser_events, htr, hts, last_log_level]
      · simp only [List.length_append, List.length_cons, List.length_nil] at hlen
        simp [hlen, statement_count]
        omega
    | log l =>
      obtain ⟨ts, hts, hlen⟩ :=
        ih triples (handle_log_messages l) (fun e he => h e (List.mem_cons_of_mem _ he))
      refine ⟨ts, ?_, by simpa [statement_count] using hlen⟩
      simp only [rdf_web_parser_events, hts, last_log_level]
      cases hll : last_log_level rest <;> simp [hll]

/-- Statement of the counterexample parse: one ordinary uri statement. -/
def sample_statement : raptor_statement :=
  ⟨raptor_term.uriT (some "s"), raptor_term.uriT (some "p"),
    raptor_term.uriT (some "o")⟩

/-- The triple the counterexample statement parses into. -/
def sample_triple : rdf_triple :=
  ⟨rdf_term.uriTerm ⟨"s"⟩, rdf_term.uriTerm ⟨"p"⟩, rdf_term.uriTerm ⟨"o"⟩⟩

/-- A fetch that parses one statement and then fails with an ERROR log
message (a network or parse failure surfacing after some statements were
already delivered). -/
def failing_fetch_outcome : web_fetch_outcome :=
  ⟨true, [raptor_event.statement sample_statement,
          raptor_event.log raptor_log_level.error]⟩

/-- C5 counterexample: on a fetch whose parse fails after delivering one
statement, rdf_web_parser returns ok = false together with a NON-empty triple
sequence — the partial triple parsed before the failure is copied to the
caller, refuting the claim that failures come with an empty sequence. -/
theorem rdf_web_parser_partial_triples_counterexample :
    rdf_web_parser_call failing_fetch_outcome = Except.ok (false, [sample_triple])
    ∧ [sample_triple] ≠ ([] : List rdf_triple) :=
  ⟨rfl, by simp⟩

/-- C5 amended: for every fetch whose uri object initialises and whose events
are well formed, the call never raises — network-level failures surface as
log events and are absorbed — and it returns an ok flag equal to the severity
check of the LAST log message (true when none was emitted), together with all
triples parsed, one per statement event: the sequence may be non-empty even
when ok = false. -/
theorem rdf_web_parser_contract_amended (o : web_fetch_outcome)
    (h1 : o.uri_init_ok = true)
    (h2 : ∀ e ∈ o.events, well_formed_event e = true) :
    ∃ g ts, rdf_web_parser_call o = Except.ok (g, ts)
      ∧ g = (match last_log_level o.events with
             | some l => handle_log_messages l
             | none => true)
      ∧ ts.length = statement_count o.events := by
  obtain ⟨ts, hts, hlen⟩ := rdf_web_parser_events_spec o.events [] true h2
  exact ⟨_, ts, by simp [rdf_web_parser_call, h1, hts], rfl, by simpa using hlen⟩

/-- Witness for the amended C5 contract at the concrete failing fetch. -/
theorem rdf_web_parser_contract_amended_witness :
    (failing_fetch_outcome.uri_init_ok = true
      ∧ ∀ e ∈ failing_fetch_outcome.events, well_formed_event e = true)
    ∧ ∃ g ts, rdf_web_parser_call failing_fetch_outcome = Except.ok (g, ts)
      ∧ g = (match last_log_level failing_fetch_outcome.events with
             | some l => handle_log_messages l
             | none => true)
      ∧ ts.length = statement_count failing_fetch_outcome.events :=
  ⟨⟨rfl, by decide⟩,
    rdf_web_parser_contract_amended failing_fetch_outcome rfl (by decide)⟩

/-- An observer value as the walker invokes it: given the node uri and the
view of filtered triples it performs its side effect, or signals a failure of
type ε (a thrown C++ exception). -/
def observer_fun (ε : Type) := String → List rdf_triple → Except ε Unit

/-- One invocation of aggregate::operator() over the component list:
boost::fusion::for_each applies the call_me functor to every component in
registration order, handing each the same (str, first, last) arguments; a
thrown failure propagates out of for_each at once. The model returns the
(uri, triples) argument pair of each component invocation actually performed,
in order, together with the propagated failure, if any. -/
def aggregate {ε : Type} : List (observer_fun ε) → String → List rdf_triple →
    List (String × List rdf_triple) × Option ε
  | [], _, _ => ([], none)
  | f :: fs, str, triples =>
    match f str triples with
    | Except.ok _ =>
      let rest := aggregate fs str triples
      ((str, triples) :: rest.1, rest.2)
    | Except.error e => ([(str, triples)], some e)

/-- C8. Composite fan-out: every component invocation an aggregate call
performs receives the identical (uri, triples) input; when no component
fails, each of the N components is invoked exactly once (N invocations, in
registration order); when a failure is signalled, the components before the
failing one all succeeded, the failing component is the last one invoked, and
none of the later-registered components run. -/
theorem aggregate_fan_out {ε : Type} (fs : List (observer_fun ε)) (str : String)
    (triples : List rdf_triple) :
    (∀ c ∈ (aggregate fs str triples).1, c = (str, triples))
    ∧ ((aggregate fs str triples).2 = none →
        (aggregate fs str triples).1.length = fs.length)
    ∧ (∀ e, (aggregate fs str triples).2 = some e →
        ∃ k, ∃ hk : k < fs.length,
          (aggregate fs str triples).1.length = k + 1
          ∧ (∀ j, ∀ hj : j < fs.length, j < k →
              fs.get ⟨j, hj⟩ str triples = Except.ok ())
          ∧ fs.get ⟨k, hk⟩ str triples = Except.error e) := by
  induction fs with
  | nil =>
    refine ⟨by simp [aggregate], by simp [aggregate], ?_⟩
    intro e he
    simp [aggregate] at he
  | cons f fs ih =>
    obtain ⟨ih1, ih2, ih3⟩ := ih
    cases hf : f str triples with
    | ok u =>
      refine ⟨?_, ?_, ?_⟩
      · intro c hc
        simp only [aggregate, hf, List.mem_cons] at hc
        rcases hc with hc | hc
        · exact hc
        · exact ih1 c hc
      · intro hnone
        simp only [aggregate, hf] at hnone ⊢
        simp [ih2 hnone]
      · intro e he
        simp only [aggregate, hf] at he ⊢
        obtain ⟨k, hk, hlen, hpre, hfail⟩ := ih3 e he
        refine ⟨k + 1, by simpa using Nat.succ_lt_succ hk, by simp [hlen], ?_, ?_⟩
        · intro j hj hjk
          cases j with
          | zero => cases u; simpa using hf
          | succ j' =>
            have hj' : j' < fs.length := by omega
            have := hpre j' hj' (by omega)
            simpa using this
        · simpa using hfail
    | error e' =>
      refine ⟨?_, ?_, ?_⟩
      · intro c hc
        simp only [aggregate, hf] at hc
        simpa using hc
      · intro hnone
        simp [aggregate, hf] at hnone
      · intro e he
        simp only [aggregate, hf] at he ⊢
        obtain rfl : e' = e := by simpa using he
        refine ⟨0, by simp, by simp, ?_, by simpa using hf⟩
        intro j hj hjk
        omega

/-- std::remove_if over the std::list of triples: the value sequence of the
subrange [begin(triples), new_end) after the call, i.e. the elements NOT
satisfying the removal predicate, kept in their original relative order. -/
def remove_if {α : Type} (p : α → Bool) : List α → List α
  | [] => []
  | x :: xs => if p x then remove_if p xs else x :: remove_if p xs

/-- remove_if with the negated predicate computes List.filter: the kept
subrange is exactly the admitted subsequence, in original order. -/
theorem remove_if_not_eq_filter {α : Type} (p : α → Bool) (l : List α) :
    remove_if (fun a => !p a) l = l.filter p := by
  induction l with
  | nil => rfl
  | cons x xs ih => cases hx : p x <;> simp [remove_if, hx, ih]

/-- The for_each over the kept triple range at the end of a loop iteration:
for each triple whose object term is a uri, term_cast the object and push its
uri string onto the fringe, in triple order. -/
def fringe_additions (kept : List rdf_triple) : List String :=
  kept.filterMap (fun t =>
    let obj := t.object
    if is_uri obj then
      match term_cast_uri obj with
      | Except.ok next_uri => some (to_std_string next_uri.uri)
      | Except.error _ => none
    else none)

/-- The observable trace of one walk call: the observer invocations (uri and
filtered triple range, in invocation order), the fetch attempts, the fringe
dequeues and enqueues (the start uri included among the enqueues), and the
final closed list. -/
structure walk_run where
  visits : List (String × List rdf_triple)
  fetches : List String
  dequeues : List String
  enqueues : List String
  closed_list : List String
deriving DecidableEq, Repr, Inhabited

/-- One walk loop of ontology_walker::operator(), indexed by fuel (a bound on
the number of dequeues; the C++ loop runs unboundedly). The fetch collaborator
is the function giving, for each uri, the flag rdf_web_parser returns and the
triples it writes. Per iteration: pop the front uri; if it is in the closed
list, discard it; otherwise insert it into the closed list, fetch, and on
good rdf filter the triples with remove_if over the negated predicate, invoke
the visitor on the kept range, and push the uri objects of the kept range
onto the fringe. -/
def walk_loop (fetch : String → Bool × List rdf_triple) (pred : rdf_triple → Bool) :
    Nat → List String → List String → walk_run → Option walk_run
  | _, [], closed_list, acc => some { acc with closed_list := closed_list }
  | 0, _ :: _, _, _ => none
  | fuel + 1, current_uri :: fringe, closed_list, acc =>
    let acc1 := { acc with dequeues := acc.dequeues ++ [current_uri] }
    if current_uri ∈ closed_list then
      walk_loop fetch pred fuel fringe closed_list acc1
    else
      let closed2 := current_uri :: closed_list
      let res := fetch current_uri
      let acc2 := { acc1 with fetches := acc1.fetches ++ [current_uri] }
      if res.1 then
        let kept := remove_if (fun t => !pred t) res.2
        let new_uris := fringe_additions kept
        walk_loop fetch pred fuel (fringe ++ new_uris) closed2
          { acc2 with
              visits := acc2.visits ++ [(current_uri, kept)],
              enqueues := acc2.enqueues ++ new_uris }
      else
        walk_loop fetch pred fuel fringe closed2 acc2

/-- ontology_walker::operator() on a start uri: empty closed list, fringe
holding only the start uri (recorded as its enqueue), then the loop. -/
def ontology_walker (fetch : String → Bool × List rdf_triple)
    (pred : rdf_triple → Bool) (fuel : Nat) (uri : String) : Option walk_run :=
  walk_loop fetch pred fuel [uri] []
    { visits := [], fetches := [], dequeues := [], enqueues := [uri],
      closed_list := [] }

/-- A triple whose three terms are resource uris, the object naming o. -/
def ref_triple (s o : String) : rdf_triple :=
  ⟨rdf_term.uriTerm ⟨s⟩, rdf_term.uriTerm ⟨"ref"⟩, rdf_term.uriTerm ⟨o⟩⟩

/-- A triple whose object is a literal, contributing nothing to the fringe. -/
def lit_triple (s v : String) : rdf_triple :=
  ⟨rdf_term.uriTerm ⟨s⟩, rdf_term.uriTerm ⟨"val"⟩,
    rdf_term.literalTerm ⟨v, ⟨""⟩⟩⟩

/-- The default admit-all predicate (factories::true_const_pred). -/
def true_const_pred : rdf_triple → Bool := fun _ => true

/-- An admission predicate admitting exactly the triples whose object is a
resource uri. -/
def object_is_uri_pred : rdf_triple → Bool := fun t => is_uri t.object

/-- Diamond graph: a references b then c; b and c each reference d. -/
def diamond_fetch (uri : String) : Bool × List rdf_triple :=
  if uri = "a" then (true, [ref_triple "a" "b", ref_triple "a" "c"])
  else if uri = "b" then (true, [ref_triple "b" "d"])
  else if uri = "c" then (true, [ref_triple "c" "d"])
  else if uri = "d" then (true, [])
  else (false, [])

/-- Cyclic graph: a references b and b references a. -/
def cycle_fetch (uri : String) : Bool × List rdf_triple :=
  if uri = "a" then (true, [ref_triple "a" "b"])
  else if uri = "b" then (true, [ref_triple "b" "a"])
  else (false, [])

/-- Failing-node graph: a references x then b, fetching x fails, and b's
admitted triples reference x again after x has been closed. -/
def failing_node_fetch (uri : String) : Bool × List rdf_triple :=
  if uri = "a" then (true, [ref_triple "a" "x", ref_triple "a" "b"])
  else if uri = "b" then (true, [ref_triple "b" "x"])
  else (false, [])

/-- Mixed graph: a's triples interleave uri references (b twice) with
literal-valued triples; fetching b succeeds with a literal triple. -/
def mixed_fetch (uri : String) : Bool × List rdf_triple :=
  if uri = "a" then
    (true, [ref_triple "a" "b", lit_triple "a" "v1", ref_triple "a" "b",
            lit_triple "a" "v2"])
  else if uri = "b" then (true, [lit_triple "b" "w"])
  else (false, [])

/-- FIFO discipline of the fringe: whenever the enqueue trace equals the
dequeue trace followed by the current fringe contents, a completed run ends
with equal traces (every uri is dequeued in exactly its enqueue order). -/
theorem walk_loop_fifo (fetch : String → Bool × List rdf_triple)
    (pred : rdf_triple → Bool) :
    ∀ (fuel : Nat) (fringe closed : List String) (acc r : walk_run),
      walk_loop fetch pred fuel fringe closed acc = some r →
      acc.enqueues = acc.dequeues ++ fringe →
      r.enqueues = r.dequeues := by
  intro fuel
  induction fuel with
  | zero =>
    intro fringe closed acc r hrun hinv
    cases fringe with
    | nil =>
      simp only [walk_loop, Option.some.injEq] at hrun
      subst hrun
      simpa using hinv
    | cons u fr => simp [walk_loop] at hrun
  | succ fuel ih =>
    intro fringe closed acc r hrun hinv
    cases fringe with
    | nil =>
      simp only [walk_loop, Option.some.injEq] at hrun
      subst hrun
      simpa using hinv
    | cons u fr =>
      simp only [walk_loop] at hrun
      by_cases hmem : u ∈ closed
      · simp only [if_pos hmem] at hrun
        exact ih fr closed _ r hrun (by simp [hinv])
      · simp only [if_neg hmem] at hrun
        cases hres : (fetch u).1 with
        | true =>
          simp only [hres, if_pos rfl] at hrun
          exact ih _ _ _ r hrun (by simp [hinv])
        | false =>
          simp only [hres] at hrun
          simp only [Bool.false_eq_true, if_neg] at hrun
          exact ih fr _ _ r hrun (by simp [hinv])

/-- The closed list mirrors the fetch trace: a uri is inserted into the
closed list in the same iteration as its fetch attempt (and before it), so at
every loop entry the closed list is exactly the reversed fetch trace. -/
theorem walk_loop_closed_eq_fetches (fetch : String → Bool × List rdf_triple)
    (pred : rdf_triple → Bool) :
    ∀ (fuel : Nat) (fringe closed : List String) (acc r : walk_run),
      walk_loop fetch pred fuel fringe closed acc = some r →
      closed = acc.fetches.reverse →
      r.closed_list = r.fetches.reverse := by
  intro fuel
  induction fuel with
  | zero =>
    intro fringe closed acc r hrun hinv
    cases fringe with
    | nil =>
      simp only [walk_loop, Option.some.injEq] at hrun
      subst hrun
      simpa using hinv
    | cons u fr => simp [walk_loop] at hrun
  | succ fuel ih =>
    intro fringe closed acc r hrun hinv
    cases fringe with
    | nil =>
      simp only [walk_loop, Option.some.injEq] at hrun
      subst hrun
      simpa using hinv
    | cons u fr =>
      simp only [walk_loop] at hrun
      by_cases hmem : u ∈ closed
      · simp only [if_pos hmem] at hrun
        exact ih fr closed _ r hrun (by simp [hinv])
      · simp only [if_neg hmem] at hrun
        cases hres : (fetch u).1 with
        | true =>
          simp only [hres, if_pos rfl] at hrun
          exact ih _ _ _ r hrun (by simp [hinv])
        | false =>
          simp only [hres] at hrun
          simp only [Bool.false_eq_true, if_neg] at hrun
          exact ih fr _ _ r hrun (by simp [hinv])

/-- Deduplication at dequeue: provided every already-recorded visit subject
and fetch subject is closed and the recorded traces are duplicate-free, a
completed run keeps both traces duplicate-free (a closed uri is discarded at
dequeue, so no uri is visited or fetched twice). -/
theorem walk_loop_nodup (fetch : String → Bool × List rdf_triple)
    (pred : rdf_triple → Bool) :
    ∀ (fuel : Nat) (fringe closed : List String) (acc r : walk_run),
      walk_loop fetch pred fuel fringe closed acc = some r →
      (∀ u ∈ acc.visits.map Prod.fst, u ∈ closed) →
      (∀ u ∈ acc.fetches, u ∈ closed) →
      (acc.visits.map Prod.fst).Nodup →
      acc.fetches.Nodup →
      (r.visits.map Prod.fst).Nodup ∧ r.fetches.Nodup := by
  intro fuel
  induction fuel with
  | zero =>
    intro fringe closed acc r hrun _ _ hv hf
    cases fringe with
    | nil =>
      simp only [walk_loop, Option.some.injEq] at hrun
      subst hrun
      exact ⟨hv, hf⟩
    | cons u fr => simp [walk_loop] at hrun
  | succ fuel ih =>
    intro fringe closed acc r hrun hvc hfc hv hf
    cases fringe with
    | nil =>
      simp only [walk_loop, Option.some.injEq] at hrun
      subst hrun
      exact ⟨hv, hf⟩
    | cons u fr =>
      simp only [walk_loop] at hrun
      by_cases hmem : u ∈ closed
      · simp only [if_pos hmem] at hrun
        exact ih fr closed _ r hrun hvc hfc hv hf
      · simp only [if_neg hmem] at hrun
        cases hres : (fetch u).1 with
        | true =>
          simp only [hres, if_pos rfl] at hrun
          refine ih _ _ _ r hrun ?_ ?_ ?_ ?_
          · intro v hvmem
            simp only [List.map_append] at hvmem
            rcases List.mem_append.mp hvmem with h | h
            · exact List.mem_cons_of_mem _ (hvc v h)
            · simp only [List.map_cons, List.map_nil, List.mem_singleton] at h
              subst h
              exact List.mem_cons_self _ _
          · intro v hvmem
            rcases List.mem_append.mp hvmem with h | h
            · exact List.mem_cons_of_mem _ (hfc v h)
            · simp only [List.mem_singleton] at h
              subst h
              exact List.mem_cons_self _ _
          · simp only [List.map_append, List.map_cons, List.map_nil]
            rw [List.nodup_append]
            refine ⟨hv, List.nodup_singleton _, ?_⟩
            intro v hvmem hvm
            simp only [List.mem_singleton] at hvm
            subst hvm
            exact hmem (hvc v hvmem)
          · rw [List.nodup_append]
            refine ⟨hf, List.nodup_singleton _, ?_⟩
            intro v hvmem hvm
            simp only [List.mem_singleton] at hvm
            subst hvm
            exact hmem (hfc v hvmem)
        | false =>
          simp only [hres] at hrun
          simp only [Bool.false_eq_true, if_neg] at hrun
          refine ih fr _ _ r hrun ?_ ?_ hv ?_
          · intro v hvmem
            exact List.mem_cons_of_mem _ (hvc v hvmem)
          · intro v hvmem
            rcases List.mem_append.mp hvmem with h | h
            · exact List.mem_cons_of_mem _ (hfc v h)
            · simp only [List.mem_singleton] at h
              subst h
              exact List.mem_cons_self _ _
          · rw [List.nodup_append]
            refine ⟨hf, List.nodup_singleton _, ?_⟩
            intro v hvmem hvm
            simp only [List.mem_singleton] at hvm
            subst hvm
            exact hmem (hfc v hvmem)

/-- Every observer invocation of a completed run pairs a uri whose fetch
succeeded with exactly the remove_if-filtered range of its fetched triples
(provided the already-recorded visits do). -/
theorem walk_loop_visits_spec (fetch : String → Bool × List rdf_triple)
    (pred : rdf_triple → Bool) :
    ∀ (fuel : Nat) (fringe closed : List String) (acc r : walk_run),
      walk_loop fetch pred fuel fringe closed acc = some r →
      (∀ v ∈ acc.visits, (fetch v.1).1 = true
        ∧ v.2 = remove_if (fun t => !pred t) (fetch v.1).2) →
      ∀ v ∈ r.visits, (fetch v.1).1 = true
        ∧ v.2 = remove_if (fun t => !pred t) (fetch v.1).2 := by
  intro fuel
  induction fuel with
  | zero =>
    intro fringe closed acc r hrun hvs
    cases fringe with
    | nil =>
      simp only [walk_loop, Option.some.injEq] at hrun
      subst hrun
      exact hvs
    | cons u fr => simp [walk_loop] at hrun
  | succ fuel ih =>
    intro fringe closed acc r hrun hvs
    cases fringe with
    | nil =>
      simp only [walk_loop, Option.some.injEq] at hrun
      subst hrun
      exact hvs
    | cons u fr =>
      simp only [walk_loop] at hrun
      by_cases hmem : u ∈ closed
      · simp only [if_pos hmem] at hrun
        exact ih fr closed _ r hrun hvs
      · simp only [if_neg hmem] at hrun
        cases hres : (fetch u).1 with
        | true =>
          simp only [hres, if_pos rfl] at hrun
          refine ih _ _ _ r hrun ?_
          intro v hvmem
          rcases List.mem_append.mp hvmem with h | h
          · exact hvs v h
          · simp only [List.mem_singleton] at h
            subst h
            exact ⟨hres, rfl⟩
        | false =>
          simp only [hres] at hrun
          simp only [Bool.false_eq_true, if_neg] at hrun
          exact ih fr _ _ r hrun hvs

/-- Every enqueue of a completed run beyond those already recorded stems from
a recorded visit: the enqueue trace extends by exactly the fringe additions
of the visits performed, in visit order. In particular a node that is never
visited (for example one whose fetch failed) contributes no enqueues. -/
theorem walk_loop_enqueues_structure (fetch : String → Bool × List rdf_triple)
    (pred : rdf_triple → Bool) :
    ∀ (fuel : Nat) (fringe closed : List String) (acc r : walk_run),
      walk_loop fetch pred fuel fringe closed acc = some r →
      ∃ nv, r.visits = acc.visits ++ nv
        ∧ r.enqueues = acc.enqueues
            ++ (nv.map (fun v => fringe_additions v.2)).flatten := by
  intro fuel
  induction fuel with
  | zero =>
    intro fringe closed acc r hrun
    cases fringe with
    | nil =>
      simp only [walk_loop, Option.some.injEq] at hrun
      subst hrun
      exact ⟨[], by simp⟩
    | cons u fr => simp [walk_loop] at hrun
  | succ fuel ih =>
    intro fringe closed acc r hrun
    cases fringe with
    | nil =>
      simp only [walk_loop, Option.some.injEq] at hrun
      subst hrun
      exact ⟨[], by simp⟩
    | cons u fr =>
      simp only [walk_loop] at hrun
      by_cases hmem : u ∈ closed
      · simp only [if_pos hmem] at hrun
        obtain ⟨nv, h1, h2⟩ := ih fr closed _ r hrun
        exact ⟨nv, h1, h2⟩
      · simp only [if_neg hmem] at hrun
        cases hres : (fetch u).1 with
        | true =>
          simp only [hres, if_pos rfl] at hrun
          obtain ⟨nv, hnv1, hnv2⟩ := ih _ _ _ r hrun
          refine ⟨(u, remove_if (fun t => !pred t) (fetch u).2) :: nv, ?_, ?_⟩
          · simp only [hnv1]
            simp
          · simp only [hnv2]
            simp
        | false =>
          simp only [hres] at hrun
          simp only [Bool.false_eq_true, if_neg] at hrun
          obtain ⟨nv, h1, h2⟩ := ih fr _ _ r hrun
          exact ⟨nv, h1, h2⟩

/-- The fringe contribution of one node: the uris its kept triple range
pushes when its fetch reports good rdf, nothing when the fetch fails. -/
def node_edges (fetch : String → Bool × List rdf_triple)
    (pred : rdf_triple → Bool) (u : String) : List String :=
  if (fetch u).1 then fringe_additions (remove_if (fun t => !pred t) (fetch u).2)
  else []

/-- Termination measure of the walk loop over a finite set S of reachable
uris: the fringe length plus, for every uri of S not yet closed, one dequeue
and the enqueues that uri can contribute. Every loop iteration strictly
decreases it. -/
def walk_measure (fetch : String → Bool × List rdf_triple)
    (pred : rdf_triple → Bool) (S : Finset String)
    (fringe closed : List String) : Nat :=
  fringe.length
    + ∑ u in S.filter (fun u => u ∉ closed), (1 + (node_edges fetch pred u).length)

/-- Fuel at least the measure always suffices: the loop reaches the empty
fringe, provided the fringe stays inside S and S is closed under the edges a
successful fetch discovers. -/
theorem walk_loop_total (fetch : String → Bool × List rdf_triple)
    (pred : rdf_triple → Bool) (S : Finset String)
    (hS : ∀ u ∈ S, ∀ v ∈ node_edges fetch pred u, v ∈ S) :
    ∀ (fuel : Nat) (fringe closed : List String) (acc : walk_run),
      (∀ u ∈ fringe, u ∈ S) →
      walk_measure fetch pred S fringe closed ≤ fuel →
      ∃ r, walk_loop fetch pred fuel fringe closed acc = some r := by
  intro fuel
  induction fuel with
  | zero =>
    intro fringe closed acc hfr hm
    cases fringe with
    | nil => exact ⟨_, rfl⟩
    | cons u fr =>
      exfalso
      simp [walk_measure] at hm
  | succ fuel ih =>
    intro fringe closed acc hfr hm
    cases fringe with
    | nil => exact ⟨_, rfl⟩
    | cons u fr =>
      have huS : u ∈ S := hfr u (List.mem_cons_self _ _)
      have hfr' : ∀ v ∈ fr, v ∈ S := fun v hv => hfr v (List.mem_cons_of_mem _ hv)
      by_cases hmem : u ∈ closed
      · have hm' : walk_measure fetch pred S fr closed ≤ fuel := by
          simp only [walk_measure, List.length_cons] at hm ⊢
          omega
        obtain ⟨r, hr⟩ := ih fr closed _ hfr' hm'
        exact ⟨r, by simp only [walk_loop, if_pos hmem]; exact hr⟩
      · have humem : u ∈ S.filter (fun x => x ∉ closed) := by
          simp [Finset.mem_filter, huS, hmem]
        have hfilter : S.filter (fun x => x ∉ (u :: closed))
            = (S.filter (fun x => x ∉ closed)).erase u := by
          ext x
          simp only [Finset.mem_filter, Finset.mem_erase, List.mem_cons]
          tauto
        have hsum :
            ∑ x in (S.filter (fun x => x ∉ closed)).erase u,
                (1 + (node_edges fetch pred x).length)
              + (1 + (node_edges fetch pred u).length)
            = ∑ x in S.filter (fun x => x ∉ closed),
                (1 + (node_edges fetch pred x).length) :=
          Finset.sum_erase_add _ _ humem
        cases hres : (fetch u).1 with
        | true =>
          have hedges : fringe_additions (remove_if (fun t => !pred t) (fetch u).2)
              = node_edges fetch pred u := by
            simp [node_edges, hres]
          have hm' : walk_measure fetch pred S
              (fr ++ fringe_additions (remove_if (fun t => !pred t) (fetch u).2))
              (u :: closed) ≤ fuel := by
            simp only [walk_measure, List.length_cons, List.length_append,
              hfilter, hedges] at hm ⊢
            omega
          have hfr2 : ∀ v ∈ fr ++ fringe_additions
              (remove_if (fun t => !pred t) (fetch u).2), v ∈ S := by
            intro v hv
            rcases List.mem_append.mp hv with h | h
            · exact hfr' v h
            · exact hS u huS v (by rw [← hedges] at *; simpa [node_edges, hres] using h)
          obtain ⟨r, hr⟩ := ih _ (u :: closed) _ hfr2 hm'
          refine ⟨r, ?_⟩
          simp only [walk_loop, if_neg hmem, hres, if_pos rfl]
          exact hr
        | false =>
          have hm' : walk_measure fetch pred S fr (u :: closed) ≤ fuel := by
            simp only [walk_measure, List.length_cons, hfilter] at hm ⊢
            omega
          obtain ⟨r, hr⟩ := ih fr (u :: closed) _ hfr' hm'
          refine ⟨r, ?_⟩
          simp only [walk_loop, if_neg hmem, hres]
          simp only [Bool.false_eq_true, if_neg]
          exact hr

/-- C1. At-most-once visit: in any completed walk, for any fetch collaborator
and admission predicate, the subjects of the observer invocations are
pairwise distinct and so are the fetch subjects — a uri already in the closed
list at dequeue time is discarded with no fetch and no observer call, no
matter how many distinct triples referenced it. -/
theorem walk_at_most_once_visit (fetch : String → Bool × List rdf_triple)
    (pred : rdf_triple → Bool) (fuel : Nat) (start : String) (r : walk_run)
    (h : ontology_walker fetch pred fuel start = some r) :
    (r.visits.map Prod.fst).Nodup ∧ r.fetches.Nodup := by
  refine walk_loop_nodup fetch pred fuel [start] [] _ r h ?_ ?_ ?_ ?_ <;> simp

/-- The completed walk over the mixed graph, whose start node references b
through two distinct triples. -/
def mixed_run : walk_run :=
  (ontology_walker mixed_fetch object_is_uri_pred 10 "a").getD default

/-- Witness for C1 on the mixed graph: b is referenced by two distinct
triples of a yet is visited once. -/
theorem walk_at_most_once_visit_witness :
    ontology_walker mixed_fetch object_is_uri_pred 10 "a" = some mixed_run
    ∧ (mixed_run.visits.map Prod.fst).Nodup ∧ mixed_run.fetches.Nodup :=
  ⟨rfl, walk_at_most_once_visit mixed_fetch object_is_uri_pred 10 "a" mixed_run rfl⟩

/-- C2. Termination: whenever the resource-reference uris reachable through
the fetch collaborator fit in a finite set S containing the start uri and
closed under the edges a successful fetch discovers, some fuel completes the
walk — the loop, which simulates the C++ while loop dequeue for dequeue,
performs finitely many iterations and ends with an empty fringe. -/
theorem walk_terminates_of_finite_reachable (fetch : String → Bool × List rdf_triple)
    (pred : rdf_triple → Bool) (S : Finset String) (start : String)
    (hstart : start ∈ S)
    (hS : ∀ u ∈ S, ∀ v ∈ node_edges fetch pred u, v ∈ S) :
    ∃ fuel r, ontology_walker fetch pred fuel start = some r := by
  obtain ⟨r, hr⟩ := walk_loop_total fetch pred S hS
    (walk_measure fetch pred S [start] []) [start] []
    { visits := [], fetches := [], dequeues := [], enqueues := [start],
      closed_list := [] }
    (by intro u hu; simp only [List.mem_singleton] at hu; subst hu; exact hstart)
    le_rfl
  exact ⟨_, r, hr⟩

/-- The finite reachable set of the cyclic graph a → b → a. -/
def cycle_reachable : Finset String := {"a", "b"}

/-- Witness for C2 on the cyclic graph a → b → a: the hypotheses hold for the
finite set {a, b}, the walk terminates, and the concrete run at fuel 10
visits a and b exactly once each. -/
theorem walk_terminates_cycle_witness :
    ("a" ∈ cycle_reachable
      ∧ ∀ u ∈ cycle_reachable,
          ∀ v ∈ node_edges cycle_fetch true_const_pred u, v ∈ cycle_reachable)
    ∧ (∃ fuel r, ontology_walker cycle_fetch true_const_pred fuel "a" = some r)
    ∧ (ontology_walker cycle_fetch true_const_pred 10 "a").map
        (fun r => r.visits.map Prod.fst) = some ["a", "b"] :=
  ⟨⟨by decide, by decide⟩,
    walk_terminates_of_finite_reachable cycle_fetch true_const_pred
      cycle_reachable "a" (by decide) (by decide),
    rfl⟩

/-- C3. Filter correctness: in any completed walk, every observer invocation
pairs a node whose fetch reported good rdf with exactly List.filter of its
fetched triples by the admission predicate — the remove_if over the negated
predicate keeps the admitted subsequence in original fetch order — hence a
sublist of the fetched sequence: no reordering, no insertion, no omission. -/
theorem walk_filter_correctness (fetch : String → Bool × List rdf_triple)
    (pred : rdf_triple → Bool) (fuel : Nat) (start : String) (r : walk_run)
    (h : ontology_walker fetch pred fuel start = some r) :
    ∀ v ∈ r.visits, (fetch v.1).1 = true
      ∧ v.2 = ((fetch v.1).2).filter pred
      ∧ v.2.Sublist (fetch v.1).2 := by
  intro v hv
  obtain ⟨h1, h2⟩ :=
    walk_loop_visits_spec fetch pred fuel [start] [] _ r h (by simp) v hv
  rw [remove_if_not_eq_filter] at h2
  exact ⟨h1, h2, h2 ▸ List.filter_sublist _⟩

/-- Witness for C3 on the mixed graph, where the predicate admits only the
triples whose object is a resource uri. -/
theorem walk_filter_correctness_witness :
    ontology_walker mixed_fetch object_is_uri_pred 10 "a" = some mixed_run
    ∧ ∀ v ∈ mixed_run.visits, (mixed_fetch v.1).1 = true
      ∧ v.2 = ((mixed_fetch v.1).2).filter object_is_uri_pred
      ∧ v.2.Sublist (mixed_fetch v.1).2 :=
  ⟨rfl, walk_filter_correctness mixed_fetch object_is_uri_pred 10 "a" mixed_run rfl⟩

/-- C4 counterexample: in the graph where a references x then b, fetching x
fails and b's admitted triples reference x again, the completed walk enqueues
x twice — the fetch trace shows x was closed (dequeued and fetched) before b
was visited, and b's visit pushed x onto the fringe again. A closed uri IS
re-enqueued; duplicates are collapsed only at dequeue time. -/
theorem walk_reenqueue_counterexample :
    (failing_node_fetch "x").1 = false
    ∧ (ontology_walker failing_node_fetch true_const_pred 10 "a").map
        (fun r => (r.enqueues, r.fetches))
      = some (["a", "x", "b", "x"], ["a", "x", "b"])
    ∧ ["a", "x", "b", "x"].count "x" = 2 :=
  ⟨rfl, rfl, by decide⟩

/-- C4 amended: if fetching uri X fails, a completed walk performs no
observer invocation for X, discovers no edges from X — every enqueue beyond
the start uri stems from the fringe additions of a successfully visited
node — and fetches X at most once; X may be re-enqueued onto the fringe when
referenced again later in the run, but every such duplicate is discarded at
dequeue time, so X is never re-visited or re-fetched. -/
theorem walk_fetch_failure_absorption (fetch : String → Bool × List rdf_triple)
    (pred : rdf_triple → Bool) (fuel : Nat) (start : String) (r : walk_run)
    (x : String) (h : ontology_walker fetch pred fuel start = some r)
    (hx : (fetch x).1 = false) :
    x ∉ r.visits.map Prod.fst
    ∧ r.fetches.count x ≤ 1
    ∧ r.enqueues = start :: (r.visits.map (fun v => fringe_additions v.2)).flatten := by
  refine ⟨?_, ?_, ?_⟩
  · intro hmem
    simp only [List.mem_map] at hmem
    obtain ⟨v, hv, hveq⟩ := hmem
    have hvt :=
      (walk_loop_visits_spec fetch pred fuel [start] [] _ r h (by simp) v hv).1
    rw [hveq, hx] at hvt
    exact Bool.false_ne_true hvt
  · have hnodup :=
      (walk_loop_nodup fetch pred fuel [start] [] _ r h
        (by simp) (by simp) (by simp) (by simp)).2
    exact List.nodup_iff_count_le_one.mp hnodup x
  · obtain ⟨nv, hnv1, hnv2⟩ :=
      walk_loop_enqueues_structure fetch pred fuel [start] [] _ r h
    simp only [List.nil_append] at hnv1
    subst hnv1
    simpa using hnv2

/-- The completed walk over the failing-node graph. -/
def failing_run : walk_run :=
  (ontology_walker failing_node_fetch true_const_pred 10 "a").getD default

/-- Witness for the amended C4 at the failing-node graph with X = x. -/
theorem walk_fetch_failure_absorption_witness :
    (ontology_walker failing_node_fetch true_const_pred 10 "a" = some failing_run
      ∧ (failing_node_fetch "x").1 = false)
    ∧ ("x" ∉ failing_run.visits.map Prod.fst
      ∧ failing_run.fetches.count "x" ≤ 1
      ∧ failing_run.enqueues
          = "a" :: (failing_run.visits.map (fun v => fringe_additions v.2)).flatten) :=
  ⟨⟨rfl, rfl⟩,
    walk_fetch_failure_absorption failing_node_fetch true_const_pred 10 "a"
      failing_run "x" rfl rfl⟩

/-- C6. Closed before fetch: the final closed list of a completed walk is
exactly its fetch trace (most recent first) — a fresh uri is recorded closed
in the very iteration of its single fetch attempt, before the outcome is
known — so no uri is ever fetched twice in a run, and a uri whose fetch
failed stays closed without ever having been delivered to the observer. -/
theorem walk_closed_before_fetch (fetch : String → Bool × List rdf_triple)
    (pred : rdf_triple → Bool) (fuel : Nat) (start : String) (r : walk_run)
    (h : ontology_walker fetch pred fuel start = some r) :
    r.closed_list = r.fetches.reverse
    ∧ r.fetches.Nodup
    ∧ ∀ u ∈ r.fetches, (fetch u).1 = false → u ∉ r.visits.map Prod.fst := by
  refine ⟨walk_loop_closed_eq_fetches fetch pred fuel [start] [] _ r h (by simp),
    (walk_loop_nodup fetch pred fuel [start] [] _ r h
      (by simp) (by simp) (by simp) (by simp)).2, ?_⟩
  intro u _ hfail hmem
  simp only [List.mem_map] at hmem
  obtain ⟨v, hv, hveq⟩ := hmem
  have hvt :=
    (walk_loop_visits_spec fetch pred fuel [start] [] _ r h (by simp) v hv).1
  rw [hveq, hfail] at hvt
  exact Bool.false_ne_true hvt

/-- Witness for C6 at the failing-node graph: x is closed by its failed
fetch, fetched once only, and never visited. -/
theorem walk_closed_before_fetch_witness :
    ontology_walker failing_node_fetch true_const_pred 10 "a" = some failing_run
    ∧ (failing_run.closed_list = failing_run.fetches.reverse
      ∧ failing_run.fetches.Nodup
      ∧ ∀ u ∈ failing_run.fetches, (failing_node_fetch u).1 = false →
          u ∉ failing_run.visits.map Prod.fst) :=
  ⟨rfl, walk_closed_before_fetch failing_node_fetch true_const_pred 10 "a"
    failing_run rfl⟩

/-- C7. Discovery-order BFS: every completed walk dequeues uris in exactly
the order they were enqueued (strict FIFO over discovery time, duplicates
included), and on the diamond graph — a's admitted triples reference b then
c, b and c each reference d — the observer invocation order is exactly
a, b, c, d. -/
theorem walk_discovery_order_bfs :
    (∀ (fetch : String → Bool × List rdf_triple) (pred : rdf_triple → Bool)
        (fuel : Nat) (start : String) (r : walk_run),
      ontology_walker fetch pred fuel start = some r →
      r.dequeues = r.enqueues)
    ∧ (ontology_walker diamond_fetch true_const_pred 10 "a").map
        (fun r => r.visits.map Prod.fst) = some ["a", "b", "c", "d"] := by
  refine ⟨?_, rfl⟩
  intro fetch pred fuel start r h
  exact (walk_loop_fifo fetch pred fuel [start] [] _ r h (by simp)).symm
